import Mathlib

/-!
# Verification of the rafting-permit availability checker

Shallow embedding of `rafting.py` (availability normalizer, aggregator and the
two report renderers) together with proofs of the specified properties.

Modelling conventions:

* Python `datetime` values are used by the program at day granularity only
  (both CLI dates and API dates parse to midnight-aligned datetimes).  A
  calendar date is therefore embedded as a `Nat`: the number of days since a
  fixed epoch that falls on a Monday, so that Python's `date.weekday()`
  (Monday = 0) becomes `d % 7`.  `timedelta(days = i)` arithmetic and datetime
  comparison become `Nat` arithmetic and `Nat` order.
* Python strings that participate in comparisons are embedded as `List Char`;
  Python compares strings lexicographically by code point, embedded here as
  the executable comparison `charsLe`.
* Python dicts are embedded as insertion-ordered association lists; the
  program's dicts have unique keys (Python dict semantics), which theorems
  assume where needed via a `Nodup` hypothesis on the keys.
* `remaining`/`total` counts and the `min_permits` threshold are embedded as
  `Int` (Python integers compared with `<=`/`>=`).
-/

/-- Character for a single decimal digit `d < 10` (code point `48 + d`). -/
def dChar (d : Nat) : Char := Char.ofNat (48 + d)

/-- `padDigits k n` is the `k`-digit zero-padded decimal rendering of `n`,
most significant digit first, as a list of characters. -/
def padDigits : Nat → Nat → List Char
  | 0, _ => []
  | k + 1, n => dChar (n / 10 ^ k) :: padDigits k (n % 10 ^ k)

/-- The constant time-of-day tail of the response date format (the repository
formats dates at day precision, with a fixed midnight time suffix). -/
def timeSuffixChars : List Char := ['T', '0', '0', ':', '0', '0', ':', '0', '0', 'Z']

/-- Modelled from the spec: the repository imports `utils.formatter.format_date`
and the `DateFormat` enum, which are not among the provided sources.  The spec
describes the response-format date text as "date strings in a fixed
day-precision textual form for membership testing" whose "lexicographic ISO
ordering is equivalent to chronological ordering".  We model the response
format of a day number as its fixed-width (8 digit) zero-padded decimal
followed by the constant midnight time suffix; this is a fixed-width,
day-precision, most-significant-field-first form exactly like the ISO form
`YYYY-MM-DDT00:00:00Z` that appears in the repository's tests. -/
def format_date (d : Nat) : List Char := padDigits 8 d ++ timeSuffixChars

/-- Modelled from the spec: the display date format (`INPUT_DATE_FORMAT`,
`YYYY-MM-DD`) is the same day-precision form without the time suffix. -/
def format_date_input (d : Nat) : String := String.mk (padDigits 8 d)

/-- One available-date record: `{date, remaining, total}`. -/
structure DateAvailability where
  date : Nat
  remaining : Int
  total : Int
deriving DecidableEq

/-- One division in the output of `get_permit_information`:
`{name, available_dates}`. -/
structure DivisionAvailability where
  name : String
  available_dates : List DateAvailability
deriving DecidableEq

/-- One `date_availability` entry of a monthly API response:
`(date, (remaining, total))`. -/
abbrev DateEntry := Nat × Int × Int

/-- The `availability` mapping of one monthly API response:
division id to its `date_availability` entries. -/
abbrev MonthResponse := List (String × List DateEntry)

/-- `divisions_info.get(str(division_id), {}).get("name", "Division {id}")`:
resolve a division's display name from permit metadata, falling back to a
synthesized label. -/
def lookupDivisionName (divisions_info : List (String × String)) (division_id : String) : String :=
  match divisions_info.find? (fun p => p.1 == division_id) with
  | some p => p.2
  | none => "Division " ++ division_id

/-- `division_id in data` for an insertion-ordered dict. -/
def hasKey {α : Type} (data : List (String × α)) (k : String) : Bool :=
  (data.find? (fun p => p.1 == k)).isSome

/-- In-place update of the value stored under key `k` (Python dict item
mutation); keys and order are unchanged. -/
def updateValue {α : Type} (k : String) (f : α → α) : List (String × α) → List (String × α)
  | [] => []
  | p :: rest => if p.1 == k then (p.1, f p.2) :: rest else p :: updateValue k f rest

/-- `if division_id not in data: data[division_id] = {"name": ..., "available_dates": []}` -/
def ensureDivision (divisions_info : List (String × String)) (division_id : String)
    (data : List (String × DivisionAvailability)) : List (String × DivisionAvailability) :=
  if hasKey data division_id then data
  else data ++ [(division_id, ⟨lookupDivisionName divisions_info division_id, []⟩)]

/-- The monthly normalizer's skip condition for a parsed date:
`date_obj < start_date or date_obj >= end_date`. -/
def normalizationSkip (start_date end_date d : Nat) : Prop :=
  d < start_date ∨ end_date ≤ d

instance (start_date end_date d : Nat) : Decidable (normalizationSkip start_date end_date d) :=
  inferInstanceAs (Decidable (_ ∨ _))

/-- The date-window filter of the monthly normalizer: a date is kept when the
skip condition does not fire (start inclusive, end exclusive). -/
def inNormalizationWindow (start_date end_date d : Nat) : Prop :=
  ¬ normalizationSkip start_date end_date d

instance (start_date end_date d : Nat) : Decidable (inNormalizationWindow start_date end_date d) :=
  inferInstanceAs (Decidable (¬ _))

/-- Process one `date_availability` entry of one division: skip it when
`remaining <= 0`, skip it when the date misses the requested window, and
otherwise append it to that division's `available_dates`. -/
def processDateEntry (start_date end_date : Nat) (division_id : String)
    (data : List (String × DivisionAvailability)) (e : DateEntry) :
    List (String × DivisionAvailability) :=
  if e.2.1 ≤ 0 then data
  else if normalizationSkip start_date end_date e.1 then data
  else updateValue division_id
    (fun dv => ⟨dv.name, dv.available_dates ++ [⟨e.1, e.2.1, e.2.2⟩]⟩) data

/-- Process one division of one monthly response: create its record on first
sight, then fold its `date_availability` entries. -/
def processDivision (divisions_info : List (String × String)) (start_date end_date : Nat)
    (data : List (String × DivisionAvailability)) (p : String × List DateEntry) :
    List (String × DivisionAvailability) :=
  p.2.foldl (processDateEntry start_date end_date p.1)
    (ensureDivision divisions_info p.1 data)

/-- Process one monthly response. -/
def processMonth (divisions_info : List (String × String)) (start_date end_date : Nat)
    (data : List (String × DivisionAvailability)) (m : MonthResponse) :
    List (String × DivisionAvailability) :=
  m.foldl (processDivision divisions_info start_date end_date) data

/-- Collapse all monthly responses into one division-keyed mapping (the main
loop of `get_permit_information`, before the final per-division sort). -/
def collapseMonths (api_data : List MonthResponse) (divisions_info : List (String × String))
    (start_date end_date : Nat) : List (String × DivisionAvailability) :=
  api_data.foldl (processMonth divisions_info start_date end_date) []

/-- Executable lexicographic (code-point) comparison of character lists; this
is how Python compares the date strings used as sort keys. -/
def charsLe : List Char → List Char → Bool
  | [], _ => true
  | _ :: _, [] => false
  | a :: as, b :: bs => if a < b then true else if b < a then false else charsLe as bs

/-- The sort key order of `available_dates.sort(key=lambda x: x["date"])`:
compare two records by their response-format date strings. -/
def dateKeyLe (a b : DateAvailability) : Prop :=
  charsLe (format_date a.date) (format_date b.date) = true

instance : DecidableRel dateKeyLe := fun _ _ =>
  inferInstanceAs (Decidable (_ = true))

/-- `get_permit_information`, with the external client's monthly responses and
the permit metadata's division-name mapping taken as inputs (the HTTP client
is a black box; the core assumes well-formed date values, so response date
strings arrive parsed to day numbers).  Collapses the monthly data into one
mapping from division id to name and available dates, then sorts each
division's date list by its date string. -/
def get_permit_information (api_data : List MonthResponse)
    (divisions_info : List (String × String)) (start_date end_date : Nat) :
    List (String × DivisionAvailability) :=
  (collapseMonths api_data divisions_info start_date end_date).map
    (fun p => (p.1, ⟨p.2.name, p.2.available_dates.insertionSort dateKeyLe⟩))

/-- `is_weekend`: Python weekday 4 (Friday) or 5 (Saturday). -/
def is_weekend (d : Nat) : Bool :=
  d % 7 == 4 || d % 7 == 5

/-- `[end_date - timedelta(days=i) for i in range(1, num_days + 1)]` with
`num_days = (end_date - start_date).days`. -/
def datesInRange (start_date end_date : Nat) : List Nat :=
  (List.range (end_date - start_date)).map (fun i => end_date - (i + 1))

/-- The aggregator's `dates_in_range_set`: the candidate dates (optionally
restricted to weekends), formatted to response-format date strings for
membership testing. -/
def dates_in_range_set (start_date end_date : Nat) (weekends_only : Bool) :
    List (List Char) :=
  (if weekends_only then (datesInRange start_date end_date).filter is_weekend
   else datesInRange start_date end_date).map format_date

/-- One entry of `available_divisions`: `{name, dates}`. -/
structure AvailableDivision where
  name : String
  dates : List DateAvailability
deriving DecidableEq

/-- The inner loop of `get_num_available_dates`: the dates of one division
whose date string is in the candidate set and whose `remaining` meets the
threshold. -/
def matchingDates (dates_set : List (List Char)) (min_permits : Int)
    (l : List DateAvailability) : List DateAvailability :=
  l.filter (fun a => dates_set.contains (format_date a.date) && decide (min_permits ≤ a.remaining))

/-- One step of the division loop of `get_num_available_dates`: a division is
added to `available_divisions` exactly when its `matching_dates` is nonempty. -/
def availStep (dates_set : List (List Char)) (min_permits : Int)
    (acc : List (String × AvailableDivision)) (p : String × DivisionAvailability) :
    List (String × AvailableDivision) :=
  let matching := matchingDates dates_set min_permits p.2.available_dates
  if matching.isEmpty then acc else acc ++ [(p.1, ⟨p.2.name, matching⟩)]

/-- `get_num_available_dates`: returns
`(len(available_divisions), total_divisions, available_divisions)`. -/
def get_num_available_dates (permit_information : List (String × DivisionAvailability))
    (start_date end_date : Nat) (weekends_only : Bool) (min_permits : Int) :
    Nat × Nat × List (String × AvailableDivision) :=
  let dates_set := dates_in_range_set start_date end_date weekends_only
  let available_divisions := permit_information.foldl (availStep dates_set min_permits) []
  (available_divisions.length, permit_information.length, available_divisions)

/-- Modelled from the spec: the `Emoji` enum is not among the provided
sources; the spec only requires a success glyph on the permit header line. -/
def raftingSuccessGlyph : String := "(+)"

/-- Modelled from the spec: failure glyph of the permit header line. -/
def raftingFailureGlyph : String := "(-)"

/-- One `RunResult` entry:
`(available_division_count, total_division_count, available_divisions, permit_name)`. -/
abbrev PermitResult := Nat × Nat × List (String × AvailableDivision) × String

/-- The permit header line of the human renderer. -/
def permitSummaryLine (permit_id : Nat) (info : PermitResult) : String :=
  (if info.1 ≠ 0 then raftingSuccessGlyph else raftingFailureGlyph) ++ " " ++ info.2.2.2 ++
    " (" ++ toString permit_id ++ "): " ++ toString info.1 ++
    " division(s) with availability out of " ++ toString info.2.1 ++ " division(s)"

/-- The division-name sub-header line: `  * {name} (Division {div_id}):`. -/
def divisionHeaderLine (division_id : String) (name : String) : String :=
  "  * " ++ name ++ " (Division " ++ division_id ++ "):"

/-- One available-date line; indented one level deeper when division
sub-headers are shown. -/
def dateLine (showHeaders : Bool) (a : DateAvailability) : String :=
  "  " ++ (if showHeaders then "  " else "") ++ "* " ++ format_date_input a.date ++ ": " ++
    toString a.remaining ++ "/" ++ toString a.total ++ " permits remaining"

/-- The lines emitted for one division of one permit. -/
def divisionBlock (showHeaders : Bool) (p : String × AvailableDivision) : List String :=
  (if showHeaders then [divisionHeaderLine p.1 p.2.name] else []) ++
    p.2.dates.map (dateLine showHeaders)

/-- The lines emitted for one permit: the header line, then (when any division
is available) the per-division lines, with division sub-headers shown exactly
when `len(available_divisions) > 1 or maximum > 1`. -/
def permitBlock (p : Nat × PermitResult) : List String :=
  let avail := p.2.2.2.1
  let showHeaders : Bool := decide (1 < avail.length) || decide (1 < p.2.2.1)
  permitSummaryLine p.1 p.2 ::
    (if avail.isEmpty then [] else avail.flatMap (divisionBlock showHeaders))

/-- The global headline when some permit had availability. -/
def availableHeadline (start_date end_date : Nat) : String :=
  "there are permits available from " ++ format_date_input start_date ++ " to " ++
    format_date_input end_date ++ "!!!"

/-- The global headline when no permit had availability. -/
def noAvailabilityHeadline : String := "There are no permits available :("

/-- The lines of the human report: per-permit blocks with the global headline
inserted in front. -/
def humanLines (info_by_permit_id : List (Nat × PermitResult)) (start_date end_date : Nat) :
    List String :=
  (if info_by_permit_id.any (fun p => p.2.1 != 0) then availableHeadline start_date end_date
   else noAvailabilityHeadline) :: info_by_permit_id.flatMap permitBlock

/-- `generate_human_output`: the newline join of the report lines, and the
"any availability" flag. -/
def generate_human_output (info_by_permit_id : List (Nat × PermitResult))
    (start_date end_date : Nat) : String × Bool :=
  (String.intercalate "\n" (humanLines info_by_permit_id start_date end_date),
    info_by_permit_id.any (fun p => p.2.1 != 0))

/-- One step of the loop of `generate_json_output`: a permit is added exactly
when its `current` count is nonzero, keyed by its id and mapped to its
`available_divisions` only. -/
def jsonStep (acc : List (Nat × List (String × AvailableDivision))) (p : Nat × PermitResult) :
    List (Nat × List (String × AvailableDivision)) :=
  if p.2.1 != 0 then acc ++ [(p.1, p.2.2.2.1)] else acc

/-- `generate_json_output`: the output mapping (serialization of the mapping
to a JSON string is external plumbing and is not modelled) and the
"any availability" flag. -/
def generate_json_output (info_by_permit_id : List (Nat × PermitResult)) :
    List (Nat × List (String × AvailableDivision)) × Bool :=
  (info_by_permit_id.foldl jsonStep [], info_by_permit_id.any (fun p => p.2.1 != 0))

/-- Optional-result form of `availStep`: the entry contributed by one division
of the aggregator's loop, if any. -/
def availOpt (dates_set : List (List Char)) (min_permits : Int)
    (p : String × DivisionAvailability) : Option (String × AvailableDivision) :=
  if (matchingDates dates_set min_permits p.2.available_dates).isEmpty then none
  else some (p.1, ⟨p.2.name, matchingDates dates_set min_permits p.2.available_dates⟩)

/-- Optional-result form of `jsonStep`: the entry contributed by one permit of
the structured renderer's loop, if any. -/
def jsonOpt (p : Nat × PermitResult) : Option (Nat × List (String × AvailableDivision)) :=
  if p.2.1 != 0 then some (p.1, p.2.2.2.1) else none

/-- All date records stored anywhere in a normalizer state satisfy `P`. -/
def DatesProp (P : DateAvailability → Prop) (data : List (String × DivisionAvailability)) : Prop :=
  ∀ p ∈ data, ∀ a ∈ p.2.available_dates, P a

/-! ## Helper lemmas: lexicographic comparison of formatted dates -/

theorem charsLe_refl (l : List Char) : charsLe l l = true := by
  induction l with
  | nil => rfl
  | cons a l ih => simp [charsLe, lt_irrefl, ih]

theorem charsLe_total (s : List Char) : ∀ t, charsLe s t = true ∨ charsLe t s = true := by
  induction s with
  | nil => intro t; left; rfl
  | cons a as ih =>
      intro t
      cases t with
      | nil => right; rfl
      | cons b bs =>
          rcases lt_trichotomy a b with h | h | h
          · left; simp [charsLe, h]
          · subst h
            rcases ih bs with h2 | h2
            · left; simp [charsLe, lt_irrefl, h2]
            · right; simp [charsLe, lt_irrefl, h2]
          · right; simp [charsLe, h]

theorem charsLe_cons_iff {a b : Char} {as bs : List Char} :
    charsLe (a :: as) (b :: bs) = true ↔ a < b ∨ (a = b ∧ charsLe as bs = true) := by
  rcases lt_trichotomy a b with h | h | h
  · simp [charsLe, h]
  · subst h; simp [charsLe, lt_irrefl]
  · simp [charsLe, h, not_lt_of_gt h, (ne_of_gt h).symm]
    exact fun hab => absurd hab (ne_of_gt h)

theorem charsLe_trans (s : List Char) :
    ∀ t u, charsLe s t = true → charsLe t u = true → charsLe s u = true := by
  induction s with
  | nil => intro t u _ _; rfl
  | cons a as ih =>
      intro t u hst htu
      cases t with
      | nil => cases hst
      | cons b bs =>
          cases u with
          | nil => cases htu
          | cons c cs =>
              rcases charsLe_cons_iff.mp hst with h1 | ⟨h1, h1r⟩ <;>
                rcases charsLe_cons_iff.mp htu with h2 | ⟨h2, h2r⟩
              · exact charsLe_cons_iff.mpr (Or.inl (lt_trans h1 h2))
              · exact charsLe_cons_iff.mpr (Or.inl (h2 ▸ h1))
              · exact charsLe_cons_iff.mpr (Or.inl (h1 ▸ h2))
              · exact charsLe_cons_iff.mpr (Or.inr ⟨h1.trans h2, ih bs cs h1r h2r⟩)

instance : IsTotal DateAvailability dateKeyLe :=
  ⟨fun a b => charsLe_total (format_date a.date) (format_date b.date)⟩

instance : IsTrans DateAvailability dateKeyLe :=
  ⟨fun _ _ _ hab hbc => charsLe_trans _ _ _ hab hbc⟩

theorem dChar_lt_iff : ∀ d1 < 10, ∀ d2 < 10, (dChar d1 < dChar d2 ↔ d1 < d2) := by decide

theorem dChar_eq_iff : ∀ d1 < 10, ∀ d2 < 10, (dChar d1 = dChar d2 ↔ d1 = d2) := by decide

theorem decomp_lt {P q1 r1 q2 r2 : Nat} (hq : q1 < q2) (hr1 : r1 < P) :
    P * q1 + r1 < P * q2 + r2 :=
  lt_of_lt_of_le
    (calc P * q1 + r1 < P * q1 + P := Nat.add_lt_add_left hr1 _
      _ = P * (q1 + 1) := (Nat.mul_succ P q1).symm
      _ ≤ P * q2 := Nat.mul_le_mul_left P hq)
    (Nat.le_add_right _ _)

theorem charsLe_padDigits_append (t : List Char) :
    ∀ (k n1 n2 : Nat), n1 < 10 ^ k → n2 < 10 ^ k →
      (charsLe (padDigits k n1 ++ t) (padDigits k n2 ++ t) = true ↔ n1 ≤ n2) := by
  intro k
  induction k with
  | zero =>
      intro n1 n2 h1 h2
      interval_cases n1
      interval_cases n2
      simp [padDigits, charsLe_refl]
  | succ k ih =>
      intro n1 n2 h1 h2
      have hpow : (0 : Nat) < 10 ^ k := Nat.pos_pow_of_pos k (by norm_num)
      have hd1 : n1 / 10 ^ k < 10 := Nat.div_lt_of_lt_mul (by rw [pow_succ] at h1; exact h1)
      have hd2 : n2 / 10 ^ k < 10 := Nat.div_lt_of_lt_mul (by rw [pow_succ] at h2; exact h2)
      have e1 : 10 ^ k * (n1 / 10 ^ k) + n1 % 10 ^ k = n1 := Nat.div_add_mod n1 (10 ^ k)
      have e2 : 10 ^ k * (n2 / 10 ^ k) + n2 % 10 ^ k = n2 := Nat.div_add_mod n2 (10 ^ k)
      have hr1 : n1 % 10 ^ k < 10 ^ k := Nat.mod_lt _ hpow
      have hr2 : n2 % 10 ^ k < 10 ^ k := Nat.mod_lt _ hpow
      simp only [padDigits, List.cons_append, charsLe_cons_iff]
      rw [dChar_lt_iff _ hd1 _ hd2, dChar_eq_iff _ hd1 _ hd2,
        ih (n1 % 10 ^ k) (n2 % 10 ^ k) hr1 hr2]
      constructor
      · rintro (h | ⟨h, hrest⟩)
        · exact le_of_lt (e1 ▸ e2 ▸ decomp_lt h hr1)
        · rw [← e1, ← e2, h]
          exact Nat.add_le_add_left hrest _
      · intro h
        rcases lt_trichotomy (n1 / 10 ^ k) (n2 / 10 ^ k) with hq | hq | hq
        · exact Or.inl hq
        · refine Or.inr ⟨hq, ?_⟩
          rw [← e1, ← e2, hq] at h
          exact Nat.le_of_add_le_add_left h
        · exact absurd (e2 ▸ e1 ▸ decomp_lt hq hr2) (not_lt_of_ge h)

theorem format_date_le_iff {n1 n2 : Nat} (h1 : n1 < 10 ^ 8) (h2 : n2 < 10 ^ 8) :
    (charsLe (format_date n1) (format_date n2) = true ↔ n1 ≤ n2) :=
  charsLe_padDigits_append timeSuffixChars 8 n1 n2 h1 h2

theorem format_date_inj {n1 n2 : Nat} (h1 : n1 < 10 ^ 8) (h2 : n2 < 10 ^ 8)
    (he : format_date n1 = format_date n2) : n1 = n2 :=
  le_antisymm
    ((format_date_le_iff h1 h2).mp (he ▸ charsLe_refl (format_date n2)))
    ((format_date_le_iff h2 h1).mp (he ▸ charsLe_refl (format_date n2)))

/-! ## Helper lemmas: the candidate-date set -/

theorem mem_datesInRange {start_date end_date d : Nat} :
    d ∈ datesInRange start_date end_date ↔ start_date ≤ d ∧ d < end_date := by
  simp only [datesInRange, List.mem_map, List.mem_range]
  constructor
  · rintro ⟨i, hi, rfl⟩; omega
  · intro h; exact ⟨end_date - d - 1, by omega, by omega⟩

theorem dates_in_range_set_false (start_date end_date : Nat) :
    dates_in_range_set start_date end_date false =
      (datesInRange start_date end_date).map format_date := rfl

theorem dates_in_range_set_true (start_date end_date : Nat) :
    dates_in_range_set start_date end_date true =
      ((datesInRange start_date end_date).filter is_weekend).map format_date := rfl

theorem mem_dates_in_range_set {start_date end_date : Nat} {w : Bool} {s : List Char} :
    s ∈ dates_in_range_set start_date end_date w ↔
      ∃ d, start_date ≤ d ∧ d < end_date ∧ (w = true → is_weekend d = true) ∧
        format_date d = s := by
  cases w with
  | false =>
      rw [dates_in_range_set_false]
      simp only [List.mem_map, mem_datesInRange]
      constructor
      · rintro ⟨d, ⟨h1, h2⟩, rfl⟩
        exact ⟨d, h1, h2, fun h => (Bool.false_ne_true h).elim, rfl⟩
      · rintro ⟨d, h1, h2, _, rfl⟩
        exact ⟨d, ⟨h1, h2⟩, rfl⟩
  | true =>
      rw [dates_in_range_set_true]
      simp only [List.mem_map, List.mem_filter, mem_datesInRange]
      constructor
      · rintro ⟨d, ⟨⟨h1, h2⟩, hw⟩, rfl⟩
        exact ⟨d, h1, h2, fun _ => hw, rfl⟩
      · rintro ⟨d, h1, h2, hw, rfl⟩
        exact ⟨d, ⟨⟨h1, h2⟩, hw (by trivial)⟩, rfl⟩

/-! ## Helper lemmas: loop-accumulator equations -/

theorem foldlPreserves {σ : Type} {α : Type} {Inv : σ → Prop} {f : σ → α → σ}
    (hf : ∀ s x, Inv s → Inv (f s x)) :
    ∀ (l : List α) (s : σ), Inv s → Inv (l.foldl f s) := by
  intro l
  induction l with
  | nil => intro s hs; exact hs
  | cons x l ih => intro s hs; exact ih (f s x) (hf s x hs)

theorem foldl_availStep_eq (dates_set : List (List Char)) (min_permits : Int) :
    ∀ (pi : List (String × DivisionAvailability)) (acc : List (String × AvailableDivision)),
      pi.foldl (availStep dates_set min_permits) acc =
        acc ++ pi.filterMap (availOpt dates_set min_permits) := by
  intro pi
  induction pi with
  | nil => intro acc; simp
  | cons p pi ih =>
      intro acc
      by_cases h : (matchingDates dates_set min_permits p.2.available_dates).isEmpty
      · simp [availStep, availOpt, h, ih]
      · simp [availStep, availOpt, h, ih]

theorem get_num_avail_eq (pi : List (String × DivisionAvailability))
    (start_date end_date : Nat) (w : Bool) (k : Int) :
    (get_num_available_dates pi start_date end_date w k).2.2 =
      pi.filterMap (availOpt (dates_in_range_set start_date end_date w) k) := by
  simp [get_num_available_dates, foldl_availStep_eq]

theorem get_num_count_eq (pi : List (String × DivisionAvailability))
    (start_date end_date : Nat) (w : Bool) (k : Int) :
    (get_num_available_dates pi start_date end_date w k).1 =
      (get_num_available_dates pi start_date end_date w k).2.2.length := rfl

theorem get_num_total_eq (pi : List (String × DivisionAvailability))
    (start_date end_date : Nat) (w : Bool) (k : Int) :
    (get_num_available_dates pi start_date end_date w k).2.1 = pi.length := rfl

theorem matchingDates_ne_nil_iff {dates_set : List (List Char)} {min_permits : Int}
    {l : List DateAvailability} :
    matchingDates dates_set min_permits l ≠ [] ↔
      ∃ a ∈ l, format_date a.date ∈ dates_set ∧ min_permits ≤ a.remaining := by
  rw [Ne, matchingDates, List.filter_eq_nil_iff]
  push_neg
  constructor
  · rintro ⟨a, ha, hcond⟩
    rw [Bool.and_eq_true, List.elem_iff, decide_eq_true_iff] at hcond
    exact ⟨a, ha, hcond⟩
  · rintro ⟨a, ha, h1, h2⟩
    refine ⟨a, ha, ?_⟩
    rw [Bool.and_eq_true, List.elem_iff, decide_eq_true_iff]
    exact ⟨h1, h2⟩

theorem mem_matchingDates {dates_set : List (List Char)} {min_permits : Int}
    {l : List DateAvailability} {a : DateAvailability} :
    a ∈ matchingDates dates_set min_permits l ↔
      a ∈ l ∧ format_date a.date ∈ dates_set ∧ min_permits ≤ a.remaining := by
  rw [matchingDates, List.mem_filter, Bool.and_eq_true, List.elem_iff, decide_eq_true_iff]

theorem availOpt_eq_some {dates_set : List (List Char)} {min_permits : Int}
    {p : String × DivisionAvailability} {q : String × AvailableDivision} :
    availOpt dates_set min_permits p = some q ↔
      matchingDates dates_set min_permits p.2.available_dates ≠ [] ∧
        q = (p.1, ⟨p.2.name, matchingDates dates_set min_permits p.2.available_dates⟩) := by
  rw [availOpt]
  split_ifs with h
  · constructor
    · intro h2; cases h2
    · rintro ⟨hne, -⟩; exact absurd (List.isEmpty_iff.mp h) hne
  · have hne : matchingDates dates_set min_permits p.2.available_dates ≠ [] := by
      intro he
      rw [he] at h
      exact h rfl
    simp [Option.some_inj, hne, eq_comm]

theorem assoc_nodup_eq {α : Type} {l : List (String × α)}
    (h : (l.map Prod.fst).Nodup) :
    ∀ {k : String} {a b : α}, (k, a) ∈ l → (k, b) ∈ l → a = b := by
  induction l with
  | nil => intro k a b ha; cases ha
  | cons p l ih =>
      rw [List.map_cons, List.nodup_cons] at h
      intro k a b ha hb
      rcases List.mem_cons.mp ha with ha1 | ha1 <;> rcases List.mem_cons.mp hb with hb1 | hb1
      · subst ha1
        injection hb1 with h1 h2
        exact h2.symm
      · subst ha1
        exact absurd (List.mem_map.mpr ⟨(k, b), hb1, rfl⟩) h.1
      · subst hb1
        exact absurd (List.mem_map.mpr ⟨(k, a), ha1, rfl⟩) h.1
      · exact ih h.2 ha1 hb1

theorem foldl_jsonStep_eq :
    ∀ (run : List (Nat × PermitResult)) (acc : List (Nat × List (String × AvailableDivision))),
      run.foldl jsonStep acc = acc ++ run.filterMap jsonOpt := by
  intro run
  induction run with
  | nil => intro acc; simp
  | cons p run ih =>
      intro acc
      by_cases h : p.2.1 != 0
      · simp [jsonStep, jsonOpt, h, ih]
      · simp [jsonStep, jsonOpt, h, ih]

/-! ## Helper lemmas: the normalizer's accumulated state -/

theorem mem_updateValue {α : Type} {k : String} {f : α → α} :
    ∀ {l : List (String × α)} {p : String × α}, p ∈ updateValue k f l →
      p ∈ l ∨ ∃ q ∈ l, p = (q.1, f q.2) := by
  intro l
  induction l with
  | nil => intro p hp; cases hp
  | cons r l ih =>
      intro p hp
      rw [updateValue] at hp
      by_cases hr : r.1 == k
      · rw [if_pos hr] at hp
        rcases List.mem_cons.mp hp with hp1 | hp1
        · exact Or.inr ⟨r, List.mem_cons_self r l, hp1⟩
        · exact Or.inl (List.mem_cons_of_mem r hp1)
      · rw [if_neg hr] at hp
        rcases List.mem_cons.mp hp with hp1 | hp1
        · exact Or.inl (hp1 ▸ List.mem_cons_self r l)
        · rcases ih hp1 with hp2 | ⟨q, hq, hp2⟩
          · exact Or.inl (List.mem_cons_of_mem r hp2)
          · exact Or.inr ⟨q, List.mem_cons_of_mem r hq, hp2⟩

theorem datesProp_updateAppend {P : DateAvailability → Prop}
    {data : List (String × DivisionAvailability)} {k : String} {e : DateAvailability}
    (hPe : P e) (h : DatesProp P data) :
    DatesProp P (updateValue k (fun dv => ⟨dv.name, dv.available_dates ++ [e]⟩) data) := by
  intro p hp a ha
  rcases mem_updateValue hp with hp1 | ⟨q, hq, hp1⟩
  · exact h p hp1 a ha
  · subst hp1
    rcases List.mem_append.mp ha with ha1 | ha1
    · exact h q hq a ha1
    · rw [List.mem_singleton.mp ha1]
      exact hPe

theorem datesProp_processDateEntry {P : DateAvailability → Prop}
    {start_date end_date : Nat} {division_id : String}
    (hP : ∀ dt rem tot, 0 < rem → start_date ≤ dt → dt < end_date → P ⟨dt, rem, tot⟩)
    (data : List (String × DivisionAvailability)) (e : DateEntry)
    (h : DatesProp P data) :
    DatesProp P (processDateEntry start_date end_date division_id data e) := by
  rw [processDateEntry]
  split_ifs with h1 h2
  · exact h
  · exact h
  · rw [normalizationSkip, not_or] at h2
    exact datesProp_updateAppend (hP e.1 e.2.1 e.2.2 (by omega) (by omega) (by omega)) h

theorem datesProp_ensureDivision {P : DateAvailability → Prop}
    {divisions_info : List (String × String)} {division_id : String}
    {data : List (String × DivisionAvailability)} (h : DatesProp P data) :
    DatesProp P (ensureDivision divisions_info division_id data) := by
  rw [ensureDivision]
  split_ifs with h1
  · exact h
  · intro p hp a ha
    rcases List.mem_append.mp hp with hp1 | hp1
    · exact h p hp1 a ha
    · rw [List.mem_singleton.mp hp1] at ha
      cases ha

theorem datesProp_collapseMonths {P : DateAvailability → Prop}
    (api_data : List MonthResponse) (divisions_info : List (String × String))
    (start_date end_date : Nat)
    (hP : ∀ dt rem tot, 0 < rem → start_date ≤ dt → dt < end_date → P ⟨dt, rem, tot⟩) :
    DatesProp P (collapseMonths api_data divisions_info start_date end_date) := by
  refine foldlPreserves ?_ api_data [] ?_
  · intro data m hdata
    refine foldlPreserves ?_ m data hdata
    intro data2 p hdata2
    refine foldlPreserves ?_ p.2 _ (datesProp_ensureDivision hdata2)
    intro data3 e hdata3
    exact datesProp_processDateEntry hP data3 e hdata3
  · intro p hp
    cases hp

theorem mem_get_permit_information {api_data : List MonthResponse}
    {divisions_info : List (String × String)} {start_date end_date : Nat}
    {id : String} {dd : DivisionAvailability} :
    (id, dd) ∈ get_permit_information api_data divisions_info start_date end_date →
      ∃ dd0, (id, dd0) ∈ collapseMonths api_data divisions_info start_date end_date ∧
        dd.name = dd0.name ∧
        dd.available_dates = dd0.available_dates.insertionSort dateKeyLe := by
  intro h
  rcases List.mem_map.mp h with ⟨p, hp, he⟩
  rw [Prod.mk.injEq] at he
  refine ⟨p.2, ?_, ?_, ?_⟩
  · rw [← he.1]
    exact hp
  · rw [← he.2]
  · rw [← he.2]

theorem datesProp_get_permit_information {P : DateAvailability → Prop}
    (api_data : List MonthResponse) (divisions_info : List (String × String))
    (start_date end_date : Nat)
    (hP : ∀ dt rem tot, 0 < rem → start_date ≤ dt → dt < end_date → P ⟨dt, rem, tot⟩) :
    ∀ id dd, (id, dd) ∈ get_permit_information api_data divisions_info start_date end_date →
      ∀ a ∈ dd.available_dates, P a := by
  intro id dd hmem a ha
  rcases mem_get_permit_information hmem with ⟨dd0, hdd0, _, hdates⟩
  rw [hdates] at ha
  have ha0 : a ∈ dd0.available_dates :=
    (List.perm_insertionSort dateKeyLe dd0.available_dates).mem_iff.mp ha
  exact datesProp_collapseMonths api_data divisions_info start_date end_date hP
    (id, dd0) hdd0 a ha0

/-! ## Helper lemmas: weekend counting and the renderers -/

theorem datesInRange_week (sd : Nat) :
    datesInRange sd (sd + 7) = [sd + 6, sd + 5, sd + 4, sd + 3, sd + 2, sd + 1, sd] := by
  rw [datesInRange]
  have h7 : sd + 7 - sd = 7 := by omega
  rw [h7]
  have hr : List.range 7 = [0, 1, 2, 3, 4, 5, 6] := rfl
  rw [hr]
  simp only [List.map_cons, List.map_nil, List.cons.injEq, and_true]
  omega

theorem weekendFilter_week (sd : Nat) :
    ((datesInRange sd (sd + 7)).filter is_weekend).length = 2 := by
  rw [datesInRange_week]
  obtain ⟨q, r, hq, hr⟩ : ∃ q r, sd = 7 * q + r ∧ r < 7 := ⟨sd / 7, sd % 7, by omega, by omega⟩
  subst hq
  interval_cases r <;> simp +arith [List.filter, is_weekend, Nat.mul_add_mod]

theorem divisionBlock_length (sh : Bool) (p : String × AvailableDivision) :
    (divisionBlock sh p).length = (if sh then 1 else 0) + p.2.dates.length := by
  cases sh <;> simp [divisionBlock, Nat.add_comm]

theorem sum_map_one_add {α : Type} (f : α → Nat) (l : List α) :
    (l.map (fun x => 1 + f x)).sum = l.length + (l.map f).sum := by
  induction l with
  | nil => rfl
  | cons x l ih =>
      simp only [List.map_cons, List.sum_cons, List.length_cons, ih]
      omega

theorem permitBlock_length (pid : Nat) (current maximum : Nat)
    (avail : List (String × AvailableDivision)) (pname : String) :
    (permitBlock (pid, (current, maximum, avail, pname))).length =
      1 + (if 1 < avail.length ∨ 1 < maximum then avail.length else 0) +
        (avail.map (fun p => p.2.dates.length)).sum := by
  rw [permitBlock]
  by_cases hc : 1 < avail.length ∨ 1 < maximum
  · have hsh : (decide (1 < avail.length) || decide (1 < maximum)) = true := by
      rcases hc with h | h <;> simp [h]
    rw [hsh, if_pos hc]
    cases avail with
    | nil => simp at hc ⊢
    | cons p0 rest =>
        simp only [List.isEmpty_cons, Bool.false_eq_true, if_false, List.length_cons,
          List.length_flatMap]
        have hdb : (p0 :: rest).map (List.length ∘ divisionBlock true) =
            (p0 :: rest).map (fun p => 1 + p.2.dates.length) := by
          apply List.map_congr_left
          intro p _
          simp [divisionBlock_length]
        rw [hdb, sum_map_one_add]
        simp only [List.length_cons]
        omega
  · have hsh : (decide (1 < avail.length) || decide (1 < maximum)) = false := by
      push_neg at hc
      simp [Nat.not_lt.mpr hc.1, Nat.not_lt.mpr hc.2]
    rw [hsh, if_neg hc]
    cases avail with
    | nil => simp
    | cons p0 rest =>
        simp only [List.isEmpty_cons, Bool.false_eq_true, if_false, List.length_cons,
          List.length_flatMap]
        have hdb : (p0 :: rest).map (List.length ∘ divisionBlock false) =
            (p0 :: rest).map (fun p => p.2.dates.length) := by
          apply List.map_congr_left
          intro p _
          simp [divisionBlock_length]
        rw [hdb]
        omega

/-! ## Claim theorems -/

/-- C1 (amended): for every window and weekends flag, a string is in the
aggregator's `dates_in_range_set` exactly when it is the formatted form of a
date `d` with `start_date ≤ d < end_date` (start-inclusive, end-exclusive)
that respects the weekend restriction. -/
theorem claim1_candidate_set_window (start_date end_date : Nat)
    (h : start_date < end_date) (w : Bool) (s : List Char) :
    s ∈ dates_in_range_set start_date end_date w ↔
      ∃ d, start_date ≤ d ∧ d < end_date ∧ (w = true → is_weekend d = true) ∧
        format_date d = s :=
  mem_dates_in_range_set

/-- C1 witness: the characterization instantiated at the window `[10, 12)`. -/
theorem claim1_candidate_set_window_witness :
    format_date 10 ∈ dates_in_range_set 10 12 false ↔
      ∃ d, 10 ≤ d ∧ d < 12 ∧ (false = true → is_weekend d = true) ∧
        format_date d = format_date 10 :=
  claim1_candidate_set_window 10 12 (by decide) false (format_date 10)

/-- C1 counterexample: for the window `[10, 12)` the claimed boundary
convention (strictly greater than start, less than or equal to end) is false:
the formatted end date `12` is not in the candidate set even though the
claimed completeness direction requires it. -/
theorem claim1_counterexample :
    ¬ ((∀ s ∈ dates_in_range_set 10 12 false,
          ∃ d, 10 < d ∧ d ≤ 12 ∧ format_date d = s) ∧
        (∀ d, 10 < d → d ≤ 12 → format_date d ∈ dates_in_range_set 10 12 false)) := by
  intro h
  exact absurd (h.2 12 (by omega) (le_refl 12)) (by decide)

/-- C2 (amended): the aggregator's candidate-date computation and the monthly
normalizer's window filter use the same boundary convention — both accept the
start date and reject the end date (start-inclusive, end-exclusive) — and on
representable day numbers the two predicates coincide. -/
theorem claim2_boundary_conventions_agree (start_date end_date : Nat)
    (h : start_date < end_date) (hbound : end_date < 10 ^ 8) :
    (format_date start_date ∈ dates_in_range_set start_date end_date false ∧
      format_date end_date ∉ dates_in_range_set start_date end_date false) ∧
    (inNormalizationWindow start_date end_date start_date ∧
      ¬ inNormalizationWindow start_date end_date end_date) ∧
    (∀ d, d < 10 ^ 8 →
      (format_date d ∈ dates_in_range_set start_date end_date false ↔
        inNormalizationWindow start_date end_date d)) := by
  refine ⟨⟨?_, ?_⟩, ⟨?_, ?_⟩, ?_⟩
  · exact mem_dates_in_range_set.mpr
      ⟨start_date, le_refl _, h, fun hf => (Bool.false_ne_true hf).elim, rfl⟩
  · intro hmem
    rcases mem_dates_in_range_set.mp hmem with ⟨d, h1, h2, _, he⟩
    have hd : d = end_date := format_date_inj (lt_trans h2 hbound) hbound he
    omega
  · rw [inNormalizationWindow, normalizationSkip, not_or]
    omega
  · rw [inNormalizationWindow, normalizationSkip, not_or]
    intro hn
    omega
  · intro d hd
    constructor
    · intro hmem
      rcases mem_dates_in_range_set.mp hmem with ⟨d2, h1, h2, _, he⟩
      have hd2 : d2 = d := format_date_inj (lt_trans h2 hbound) hd he
      rw [inNormalizationWindow, normalizationSkip, not_or]
      omega
    · rw [inNormalizationWindow, normalizationSkip, not_or]
      intro hn
      exact mem_dates_in_range_set.mpr
        ⟨d, by omega, by omega, fun hf => (Bool.false_ne_true hf).elim, rfl⟩

/-- C2 witness: the agreement of the two boundary predicates at the window
`[10, 12)`, with the interior date `11`. -/
theorem claim2_boundary_conventions_agree_witness :
    (format_date 10 ∈ dates_in_range_set 10 12 false ∧
      format_date 12 ∉ dates_in_range_set 10 12 false) ∧
    (inNormalizationWindow 10 12 10 ∧ ¬ inNormalizationWindow 10 12 12) ∧
    (format_date 11 ∈ dates_in_range_set 10 12 false ↔ inNormalizationWindow 10 12 11) :=
  ⟨(claim2_boundary_conventions_agree 10 12 (by decide) (by norm_num)).1,
    (claim2_boundary_conventions_agree 10 12 (by decide) (by norm_num)).2.1,
    (claim2_boundary_conventions_agree 10 12 (by decide) (by norm_num)).2.2 11 (by norm_num)⟩

/-- C2 counterexample: at the window `[10, 12)` the claimed disagreement is
false — the candidate set does not accept the end date and does not reject
the start date. -/
theorem claim2_counterexample :
    ¬ ((format_date 12 ∈ dates_in_range_set 10 12 false ∧
        format_date 10 ∉ dates_in_range_set 10 12 false) ∧
       (inNormalizationWindow 10 12 10 ∧ ¬ inNormalizationWindow 10 12 12)) := by
  decide

/-- C6: with `weekends_only` set, every candidate date string comes from a
date whose `is_weekend` test holds (Python weekday 4 or 5), `is_weekend`
holds exactly for weekday indices 4 and 5, and a window whose candidate dates
span one full week has exactly two surviving dates. -/
theorem claim6_weekends_only (start_date end_date : Nat) (h : start_date < end_date) :
    (∀ s ∈ dates_in_range_set start_date end_date true,
      ∃ d, is_weekend d = true ∧ format_date d = s) ∧
    (∀ d, is_weekend d = true ↔ (d % 7 = 4 ∨ d % 7 = 5)) ∧
    (end_date = start_date + 7 →
      ((datesInRange start_date end_date).filter is_weekend).length = 2) := by
  refine ⟨?_, ?_, ?_⟩
  · intro s hs
    rcases mem_dates_in_range_set.mp hs with ⟨d, _, _, hw, he⟩
    exact ⟨d, hw rfl, he⟩
  · intro d
    rw [is_weekend, Bool.or_eq_true, beq_iff_eq, beq_iff_eq]
  · intro he
    rw [he]
    exact weekendFilter_week start_date

/-- C6 witness: the weekend filter on the one-week window `[0, 7)`. -/
theorem claim6_weekends_only_witness :
    (∃ d, is_weekend d = true ∧ format_date d = format_date 4) ∧
    (is_weekend 4 = true ↔ (4 % 7 = 4 ∨ 4 % 7 = 5)) ∧
    ((datesInRange 0 7).filter is_weekend).length = 2 :=
  ⟨(claim6_weekends_only 0 7 (by decide)).1 (format_date 4) (by decide),
    (claim6_weekends_only 0 7 (by decide)).2.1 4,
    (claim6_weekends_only 0 7 (by decide)).2.2 rfl⟩

/-- C10: the triple returned by `get_num_available_dates` satisfies:
the first component equals the number of entries of the third, the first is
at most the second, and every key of the third is a key of the input. -/
theorem claim10_aggregate_invariants (pi : List (String × DivisionAvailability))
    (start_date end_date : Nat) (w : Bool) (k : Int) :
    (get_num_available_dates pi start_date end_date w k).1 =
      (get_num_available_dates pi start_date end_date w k).2.2.length ∧
    (get_num_available_dates pi start_date end_date w k).1 ≤
      (get_num_available_dates pi start_date end_date w k).2.1 ∧
    ∀ p ∈ (get_num_available_dates pi start_date end_date w k).2.2,
      ∃ dd, (p.1, dd) ∈ pi := by
  refine ⟨get_num_count_eq pi start_date end_date w k, ?_, ?_⟩
  · rw [get_num_count_eq, get_num_avail_eq, get_num_total_eq]
    exact List.length_filterMap_le _ _
  · intro p hp
    rw [get_num_avail_eq] at hp
    rcases List.mem_filterMap.mp hp with ⟨q, hq, he⟩
    rcases availOpt_eq_some.mp he with ⟨-, rfl⟩
    exact ⟨q.2, hq⟩

/-- C3: `get_num_available_dates` reports `total_division_count` as the size
of the normalized input (before any filtering), and includes a division in
`available_divisions` if and only if at least one of its dates survives both
the date-window and the threshold filter. -/
theorem claim3_division_inclusion (pi : List (String × DivisionAvailability))
    (start_date end_date : Nat) (w : Bool) (k : Int)
    (hnodup : (pi.map Prod.fst).Nodup) :
    (get_num_available_dates pi start_date end_date w k).2.1 = pi.length ∧
    ∀ id dd, (id, dd) ∈ pi →
      ((∃ v, (id, v) ∈ (get_num_available_dates pi start_date end_date w k).2.2) ↔
        ∃ a ∈ dd.available_dates,
          format_date a.date ∈ dates_in_range_set start_date end_date w ∧
            k ≤ a.remaining) := by
  refine ⟨get_num_total_eq pi start_date end_date w k, ?_⟩
  intro id dd hdd
  constructor
  · rintro ⟨v, hv⟩
    rw [get_num_avail_eq] at hv
    rcases List.mem_filterMap.mp hv with ⟨q, hq, he⟩
    rcases availOpt_eq_some.mp he with ⟨hne, heq⟩
    have hid : id = q.1 := congrArg Prod.fst heq
    have hq2 : (id, q.2) ∈ pi := by rw [hid]; exact hq
    have hdq : q.2 = dd := assoc_nodup_eq hnodup hq2 hdd
    rw [← hdq]
    exact matchingDates_ne_nil_iff.mp hne
  · intro hex
    refine ⟨⟨dd.name,
      matchingDates (dates_in_range_set start_date end_date w) k dd.available_dates⟩, ?_⟩
    rw [get_num_avail_eq]
    refine List.mem_filterMap.mpr ⟨(id, dd), hdd, ?_⟩
    rw [availOpt_eq_some]
    exact ⟨matchingDates_ne_nil_iff.mpr hex, rfl⟩

/-- C3 witness: the test-suite style input with an empty division and one
division with a surviving date, on the window `[22, 24)`. -/
theorem claim3_division_inclusion_witness :
    (get_num_available_dates
      [("100", ⟨"Empty Division", []⟩),
       ("200", ⟨"Some River Section", [⟨22, 3, 6⟩]⟩)] 22 24 false 1).2.1 =
      [("100", (⟨"Empty Division", []⟩ : DivisionAvailability)),
       ("200", ⟨"Some River Section", [⟨22, 3, 6⟩]⟩)].length ∧
    ((∃ v, ("200", v) ∈ (get_num_available_dates
        [("100", ⟨"Empty Division", []⟩),
         ("200", ⟨"Some River Section", [⟨22, 3, 6⟩]⟩)] 22 24 false 1).2.2) ↔
      ∃ a ∈ (⟨"Some River Section", [⟨22, 3, 6⟩]⟩ : DivisionAvailability).available_dates,
        format_date a.date ∈ dates_in_range_set 22 24 false ∧ 1 ≤ a.remaining) :=
  ⟨(claim3_division_inclusion
      [("100", ⟨"Empty Division", []⟩), ("200", ⟨"Some River Section", [⟨22, 3, 6⟩]⟩)]
      22 24 false 1 (by decide)).1,
   (claim3_division_inclusion
      [("100", ⟨"Empty Division", []⟩), ("200", ⟨"Some River Section", [⟨22, 3, 6⟩]⟩)]
      22 24 false 1 (by decide)).2
      "200" ⟨"Some River Section", [⟨22, 3, 6⟩]⟩ (by decide)⟩

/-- C4: with threshold `min_permits = k`, every date entry of every division
of `available_divisions` has `remaining ≥ k` and its formatted date string in
the candidate-date set; entries below the threshold are excluded. -/
theorem claim4_threshold_filter (pi : List (String × DivisionAvailability))
    (start_date end_date : Nat) (w : Bool) (k : Int) (hk : 0 < k) :
    ∀ id v, (id, v) ∈ (get_num_available_dates pi start_date end_date w k).2.2 →
      ∀ a ∈ v.dates,
        k ≤ a.remaining ∧ format_date a.date ∈ dates_in_range_set start_date end_date w := by
  intro id v hmem a ha
  rw [get_num_avail_eq] at hmem
  rcases List.mem_filterMap.mp hmem with ⟨q, hq, he⟩
  rcases availOpt_eq_some.mp he with ⟨-, heq⟩
  have hv : v = ⟨q.2.name,
      matchingDates (dates_in_range_set start_date end_date w) k q.2.available_dates⟩ :=
    congrArg Prod.snd heq
  rw [hv] at ha
  rcases mem_matchingDates.mp ha with ⟨-, h1, h2⟩
  exact ⟨h2, h1⟩

/-- C4 witness: threshold 2 keeps only the `remaining = 3` entry of the test
division on the window `[22, 24)`. -/
theorem claim4_threshold_filter_witness :
    (2 : Int) ≤ (⟨23, 3, 6⟩ : DateAvailability).remaining ∧
      format_date (⟨23, 3, 6⟩ : DateAvailability).date ∈ dates_in_range_set 22 24 false :=
  claim4_threshold_filter
    [("200", ⟨"Some River Section", [⟨22, 1, 6⟩, ⟨23, 3, 6⟩]⟩)] 22 24 false 2
    (by norm_num) "200" ⟨"Some River Section", [⟨23, 3, 6⟩]⟩ (by decide)
    ⟨23, 3, 6⟩ (by decide)

/-- C5: every date entry in the output of `get_permit_information` has
`remaining > 0` and a date inside the half-open window
`[start_date, end_date)`; zero-remaining and out-of-window entries never
appear. -/
theorem claim5_normalized_entries (api_data : List MonthResponse)
    (divisions_info : List (String × String)) (start_date end_date : Nat) :
    ∀ id dd, (id, dd) ∈ get_permit_information api_data divisions_info start_date end_date →
      ∀ a ∈ dd.available_dates,
        0 < a.remaining ∧ start_date ≤ a.date ∧ a.date < end_date :=
  @datesProp_get_permit_information
    (fun a => 0 < a.remaining ∧ start_date ≤ a.date ∧ a.date < end_date)
    api_data divisions_info start_date end_date
    (fun _ _ _ h1 h2 h3 => ⟨h1, h2, h3⟩)

/-- C5 witness: a one-month response with an out-of-window entry and a
zero-remaining entry; only the in-window positive entry survives. -/
theorem claim5_normalized_entries_witness :
    (0 : Int) < (⟨23, 2, 5⟩ : DateAvailability).remaining ∧
      22 ≤ (⟨23, 2, 5⟩ : DateAvailability).date ∧
      (⟨23, 2, 5⟩ : DateAvailability).date < 24 :=
  claim5_normalized_entries [[("7", [(23, 2, 5), (30, 1, 4), (23, 0, 9)])]] [] 22 24
    "7" ⟨"Division 7", [⟨23, 2, 5⟩]⟩ (by decide) ⟨23, 2, 5⟩ (by decide)

/-- C9: each division's date list in the output of `get_permit_information`
is sorted ascending by its formatted date string, and on the output's entries
the lexicographic order of the date strings coincides with the chronological
order of the dates (given a representable window end). -/
theorem claim9_sorted_by_date_string (api_data : List MonthResponse)
    (divisions_info : List (String × String)) (start_date end_date : Nat)
    (hbound : end_date ≤ 10 ^ 8) :
    ∀ id dd, (id, dd) ∈ get_permit_information api_data divisions_info start_date end_date →
      List.Sorted (fun s t => charsLe s t = true)
        (dd.available_dates.map (fun a => format_date a.date)) ∧
      ∀ a ∈ dd.available_dates, ∀ b ∈ dd.available_dates,
        (charsLe (format_date a.date) (format_date b.date) = true ↔ a.date ≤ b.date) := by
  intro id dd hmem
  have hb : ∀ a ∈ dd.available_dates, a.date < 10 ^ 8 := by
    intro a ha
    exact lt_of_lt_of_le
      (@datesProp_get_permit_information (fun x => x.date < end_date) api_data divisions_info
        start_date end_date (fun _ _ _ _ _ h3 => h3) id dd hmem a ha)
      hbound
  constructor
  · rcases mem_get_permit_information hmem with ⟨dd0, -, -, hdates⟩
    rw [hdates]
    exact List.pairwise_map.mpr (List.sorted_insertionSort dateKeyLe dd0.available_dates)
  · intro a ha b hbm
    exact format_date_le_iff (hb a ha) (hb b hbm)

/-- C9 witness: a month whose entries arrive out of order is sorted by the
normalizer; on the window `[0, 100)`. -/
theorem claim9_sorted_by_date_string_witness :
    List.Sorted (fun s t => charsLe s t = true)
      (((⟨"Division 7", [⟨22, 1, 4⟩, ⟨23, 2, 5⟩]⟩ : DivisionAvailability)).available_dates.map
        (fun a => format_date a.date)) ∧
    (charsLe (format_date (⟨22, 1, 4⟩ : DateAvailability).date)
        (format_date (⟨23, 2, 5⟩ : DateAvailability).date) = true ↔
      (⟨22, 1, 4⟩ : DateAvailability).date ≤ (⟨23, 2, 5⟩ : DateAvailability).date) :=
  ⟨(claim9_sorted_by_date_string [[("7", [(23, 2, 5), (22, 1, 4)])]] [] 0 100 (by norm_num)
      "7" ⟨"Division 7", [⟨22, 1, 4⟩, ⟨23, 2, 5⟩]⟩ (by decide)).1,
   (claim9_sorted_by_date_string [[("7", [(23, 2, 5), (22, 1, 4)])]] [] 0 100 (by norm_num)
      "7" ⟨"Division 7", [⟨22, 1, 4⟩, ⟨23, 2, 5⟩]⟩ (by decide)).2
      ⟨22, 1, 4⟩ (by decide) ⟨23, 2, 5⟩ (by decide)⟩

/-- C7: the human renderer emits, per permit, one summary line plus one line
per surviving date, plus one division sub-header per available division
exactly when there is more than one available division or the total division
count exceeds one; and for a run with one permit, one available division,
one date and total count one, the output is exactly three lines — headline,
permit summary, date line — with no division sub-header. -/
theorem claim7_human_rendering :
    (∀ (pid current maximum : Nat) (avail : List (String × AvailableDivision)) (pname : String),
      (permitBlock (pid, (current, maximum, avail, pname))).length =
        1 + (if 1 < avail.length ∨ 1 < maximum then avail.length else 0) +
          (avail.map (fun p => p.2.dates.length)).sum) ∧
    (∀ (pid : Nat) (divid divname : String) (a : DateAvailability) (pname : String)
        (start_date end_date : Nat),
      humanLines [(pid, (1, 1, [(divid, ⟨divname, [a]⟩)], pname))] start_date end_date =
        [availableHeadline start_date end_date,
         permitSummaryLine pid (1, 1, [(divid, ⟨divname, [a]⟩)], pname),
         dateLine false a]) :=
  ⟨permitBlock_length, fun _ _ _ _ _ _ _ => rfl⟩

/-- C7 witness: the line counts at a concrete single-permit run. -/
theorem claim7_human_rendering_witness :
    (permitBlock (5, (1, 1, [("282", ⟨"Desolation", [⟨22, 3, 6⟩]⟩)], "P"))).length =
      1 + (if 1 < ([("282", (⟨"Desolation", [⟨22, 3, 6⟩]⟩ : AvailableDivision))]).length ∨
            (1 : Nat) < 1 then ([("282", (⟨"Desolation", [⟨22, 3, 6⟩]⟩ : AvailableDivision))]).length
          else 0) +
        (([("282", (⟨"Desolation", [⟨22, 3, 6⟩]⟩ : AvailableDivision))]).map
          (fun p => p.2.dates.length)).sum ∧
    humanLines [(5, (1, 1, [("282", ⟨"Desolation", [⟨22, 3, 6⟩]⟩)], "P"))] 1 30 =
      [availableHeadline 1 30,
       permitSummaryLine 5 (1, 1, [("282", ⟨"Desolation", [⟨22, 3, 6⟩]⟩)], "P"),
       dateLine false ⟨22, 3, 6⟩] :=
  ⟨claim7_human_rendering.1 5 1 1 [("282", ⟨"Desolation", [⟨22, 3, 6⟩]⟩)] "P",
   claim7_human_rendering.2 5 "282" "Desolation" ⟨22, 3, 6⟩ "P" 1 30⟩

/-- C8: the structured renderer's mapping contains an entry for a permit id
exactly when that permit's `available_division_count` is positive, mapped to
its `available_divisions` only, and the returned flag is true exactly when
some permit has a positive count. -/
theorem claim8_json_rendering (run : List (Nat × PermitResult)) :
    (∀ (pid : Nat) (avail : List (String × AvailableDivision)),
      (pid, avail) ∈ (generate_json_output run).1 ↔
        ∃ current maximum pname,
          (pid, (current, maximum, avail, pname)) ∈ run ∧ 0 < current) ∧
    ((generate_json_output run).2 = true ↔ ∃ p ∈ run, 0 < p.2.1) := by
  have h1 : (generate_json_output run).1 = run.filterMap jsonOpt :=
    (foldl_jsonStep_eq run []).trans (List.nil_append _)
  have h2 : (generate_json_output run).2 = run.any (fun p => p.2.1 != 0) := rfl
  constructor
  · intro pid avail
    rw [h1, List.mem_filterMap]
    constructor
    · rintro ⟨⟨pid2, current, maximum, avail2, pname⟩, hp, he⟩
      simp only [jsonOpt] at he
      by_cases hc : (current != 0) = true
      · rw [if_pos hc] at he
        injection he with he2
        injection he2 with hea heb
        subst hea
        subst heb
        exact ⟨current, maximum, pname, hp, Nat.pos_of_ne_zero (by simpa using hc)⟩
      · rw [if_neg hc] at he
        cases he
    · rintro ⟨current, maximum, pname, hmem, hc⟩
      refine ⟨(pid, (current, maximum, avail, pname)), hmem, ?_⟩
      have hc2 : (current != 0) = true := by
        simpa [bne_iff_ne] using Nat.pos_iff_ne_zero.mp hc
      simp only [jsonOpt]
      rw [if_pos hc2]
  · rw [h2, List.any_eq_true]
    constructor
    · rintro ⟨p, hp, hc⟩
      exact ⟨p, hp, Nat.pos_of_ne_zero (by simpa using hc)⟩
    · rintro ⟨p, hp, hc⟩
      exact ⟨p, hp, by simpa [bne_iff_ne] using Nat.pos_iff_ne_zero.mp hc⟩

/-- C8 witness: a run with one unavailable and one available permit. -/
theorem claim8_json_rendering_witness :
    ((2, [("282", (⟨"D", [⟨22, 3, 6⟩]⟩ : AvailableDivision))]) ∈
      (generate_json_output
        [(1, (0, 2, [], "A")),
         (2, (1, 1, [("282", ⟨"D", [⟨22, 3, 6⟩]⟩)], "B"))]).1 ↔
      ∃ current maximum pname,
        (2, (current, maximum, [("282", (⟨"D", [⟨22, 3, 6⟩]⟩ : AvailableDivision))], pname)) ∈
          [(1, (0, 2, [], "A")), (2, (1, 1, [("282", ⟨"D", [⟨22, 3, 6⟩]⟩)], "B"))] ∧
          0 < current) ∧
    ((generate_json_output
        [(1, ((0 : Nat), (2 : Nat), ([] : List (String × AvailableDivision)), "A")),
         (2, (1, 1, [("282", ⟨"D", [⟨22, 3, 6⟩]⟩)], "B"))]).2 = true ↔
      ∃ p ∈ [(1, ((0 : Nat), (2 : Nat), ([] : List (String × AvailableDivision)), "A")),
             (2, (1, 1, [("282", ⟨"D", [⟨22, 3, 6⟩]⟩)], "B"))], 0 < p.2.1) :=
  ⟨(claim8_json_rendering
      [(1, (0, 2, [], "A")), (2, (1, 1, [("282", ⟨"D", [⟨22, 3, 6⟩]⟩)], "B"))]).1
      2 [("282", ⟨"D", [⟨22, 3, 6⟩]⟩)],
   (claim8_json_rendering
      [(1, (0, 2, [], "A")), (2, (1, 1, [("282", ⟨"D", [⟨22, 3, 6⟩]⟩)], "B"))]).2⟩

/-- C10 witness: the aggregate invariants at a concrete input. -/
theorem claim10_aggregate_invariants_witness :
    (get_num_available_dates [("200", ⟨"SR", [⟨22, 3, 6⟩]⟩)] 22 24 false 1).1 =
      (get_num_available_dates [("200", ⟨"SR", [⟨22, 3, 6⟩]⟩)] 22 24 false 1).2.2.length ∧
    (get_num_available_dates [("200", ⟨"SR", [⟨22, 3, 6⟩]⟩)] 22 24 false 1).1 ≤
      (get_num_available_dates [("200", ⟨"SR", [⟨22, 3, 6⟩]⟩)] 22 24 false 1).2.1 ∧
    ∀ p ∈ (get_num_available_dates [("200", ⟨"SR", [⟨22, 3, 6⟩]⟩)] 22 24 false 1).2.2,
      ∃ dd, (p.1, dd) ∈ [("200", (⟨"SR", [⟨22, 3, 6⟩]⟩ : DivisionAvailability))] :=
  claim10_aggregate_invariants [("200", ⟨"SR", [⟨22, 3, 6⟩]⟩)] 22 24 false 1
